import Mathlib

/-!
Shallow embedding of `plot_throughput.py`, a one-shot batch script that

1. resolves a CSV path (default `results/results.csv`, else `sys.argv[1]`),
2. checks the path exists, else prints an error and exits with code 1,
3. loads the CSV rows,
4. computes `df.groupby('scenario')['QPS'].agg(['mean', 'std', 'count'])`,
5. sorts the aggregate rows by mean, descending,
6. draws a bar chart (height = mean, yerr = std) and saves it to
   `csv_file.replace('.csv', '_throughput.png')`,
7. prints a fixed-width statistics table.

Numbers are modelled exactly: `QPS` samples and group means/variances are
rationals.  The sample standard deviation the script displays is the square
root of the sample variance; since that square root is irrational, aggregate
rows carry the sample variance (`svar`, `none` encoding pandas' NaN for
groups of fewer than two samples) and the display layer performs the
square-root-and-round-to-tenths computation with exact integer arithmetic.
-/

/-! ### Small string/number utilities used by the display layer -/

/-- `' '` repeated `n` times. -/
def spaces (n : ℕ) : String := String.mk (List.replicate n ' ')

/-- Python `f"{s:<w>s}"`: strings are left-justified, padded on the right. -/
def padRight (s : String) (w : ℕ) : String := s ++ spaces (w - s.length)

/-- Right-justification to width `w`, as Python does for numeric fields. -/
def padLeft (w : ℕ) (s : String) : String := spaces (w - s.length) ++ s

/-- Insert `','` after every third character; used on the reversed digit
string to model Python's `,` thousands grouping. -/
def group3 : List Char → List Char
  | a :: b :: c :: d :: ds => a :: b :: c :: ',' :: group3 (d :: ds)
  | ds => ds

/-- Decimal digits of `n` with `','` thousands separators, as Python's
`{n:,}` renders a nonnegative integer. -/
def commaGrouped (n : ℕ) : String :=
  String.mk ((group3 (toString n).data.reverse).reverse)

/-- The integer nearest `10·q` (one-decimal fixed point of `q`, in tenths).
Models CPython's `:.1f` rounding of the exact value; exact midpoints (where
binary floating point would round to even) do not occur for the values this
development formats, so half is rounded up.  Integer `/` on `ℤ` is Euclidean
division, which is floor division for the positive divisor used here. -/
def tenths (q : ℚ) : ℤ := (20 * q.num + (q.den : ℤ)) / (2 * (q.den : ℤ))

/-- Render a tenths count as a one-decimal, comma-grouped numeral: the body
of Python's `{x:,.1f}`. -/
def fmtTenths (t : ℤ) : String :=
  (if t < 0 then "-" else "") ++ commaGrouped (t.natAbs / 10) ++ "." ++ toString (t.natAbs % 10)

/-- Newton iteration step for the integer square root, with explicit fuel so
that the kernel can evaluate it. -/
def isqrtAux (n : ℕ) : ℕ → ℕ → ℕ
  | 0, g => g
  | f + 1, g =>
    let g2 := (g + n / g) / 2
    if g2 < g then isqrtAux n f g2 else g

/-- Integer square root `⌊√n⌋` by Newton iteration. -/
def isqrt (n : ℕ) : ℕ := if n ≤ 1 then n else isqrtAux n n (n / 2 + 1)

/-- `round(10·√v)` for a nonnegative rational `v`: the tenths count of the
floating `sqrt` that the source formats with `:.1f`.  For `v = a/b`,
`10·√v = √(100·a/b)`, and the nearest integer to `√(x/b)` is
`⌊(⌊√(4·x·b)⌋ + b) / (2·b)⌋` with `x = 100·a`. -/
def sqrtTenths (v : ℚ) : ℕ :=
  (isqrt (400 * v.num.toNat * v.den) + v.den) / (2 * v.den)

/-- Python's `<` on strings: lexicographic comparison of code points.  This
(total, reflexive) `≤` version is the comparator for key-sorted grouping. -/
def lexLe : List Char → List Char → Bool
  | [], _ => true
  | _ :: _, [] => false
  | a :: as, b :: bs => if a < b then true else if b < a then false else lexLe as bs

/-- `≤` on strings as Python compares them (lexicographic on code points). -/
def strLe (a b : String) : Prop := lexLe a.data b.data = true

instance : DecidableRel strLe :=
  fun a b => inferInstanceAs (Decidable (lexLe a.data b.data = true))

/-! ### Python `str.replace` -/

/-- `containsSub pat l`: some occurrence of `pat` starts in `l`. -/
def containsSub (pat : List Char) : List Char → Bool
  | [] => pat.isEmpty
  | c :: cs => pat.isPrefixOf (c :: cs) || containsSub pat cs

/-- Worker for `str.replace`: scan left to right; when `skip = k + 1`, the
next character belongs to an occurrence already replaced and is dropped;
at `skip = 0`, a fresh match of `pat` emits `rep` and schedules the rest of
the matched characters for dropping, and a non-match copies one character. -/
def replAux (pat rep : List Char) : List Char → ℕ → List Char
  | [], _ => []
  | _ :: cs, k + 1 => replAux pat rep cs k
  | c :: cs, 0 =>
    if pat ≠ [] ∧ pat.isPrefixOf (c :: cs) then
      rep ++ replAux pat rep cs (pat.length - 1)
    else
      c :: replAux pat rep cs 0

/-- Python `s.replace(pat, rep)` for a nonempty `pat`: every non-overlapping
occurrence, scanned left to right, is replaced. -/
def pyReplace (pat rep s : List Char) : List Char := replAux pat rep s 0

/-! ### Data model -/

/-- One CSV data row, as `pd.read_csv` delivers it to the aggregation: the
`scenario` cell (`none` models an empty/NaN cell, which `groupby` drops) and
the numeric `QPS` cell. -/
structure Record where
  scenario : Option String
  QPS : ℚ
deriving DecidableEq

/-- One row of `scenario_throughput`: the group key, the group's mean QPS,
its sample variance (`none` models pandas' NaN `std` for groups with fewer
than two members; the displayed std is `√svar`), and the group size. -/
structure AggRow where
  scenario : String
  mean : ℚ
  svar : Option ℚ
  count : ℕ
deriving DecidableEq

/-! ### Aggregation: `df.groupby('scenario')['QPS'].agg(['mean','std','count'])` -/

/-- Extend the key list with one row's `scenario`, keeping first-appearance
order; a missing cell contributes no key (`groupby` drops NaN keys). -/
def addKey (ks : List String) (r : Record) : List String :=
  match r.scenario with
  | none => ks
  | some s => if s ∈ ks then ks else ks ++ [s]

/-- The distinct present `scenario` values in first-appearance order. -/
def discoveryKeys (rs : List Record) : List String :=
  rs.foldl addKey []

/-- `groupby` with its default `sort=True` emits the groups in ascending key
order; modelled as a (stable) insertion sort under Python's string order. -/
def sortKeys (ks : List String) : List String := List.insertionSort strLe ks

/-- The `QPS` column of the group keyed `s`, in row order. -/
def valsFor (rs : List Record) (s : String) : List ℚ :=
  (rs.filter fun r => decide (r.scenario = some s)).map (·.QPS)

/-- Arithmetic mean, as pandas `mean` computes it for a nonempty column. -/
def listMean (l : List ℚ) : ℚ := l.sum / l.length

/-- Sample variance with denominator `n - 1`, as pandas `std` (its default
`ddof=1`) squares it; `none` models the NaN result for `n < 2`. -/
def sampleVar (l : List ℚ) : Option ℚ :=
  if 2 ≤ l.length then
    some ((l.map fun x => (x - listMean l) ^ 2).sum / ((l.length : ℚ) - 1))
  else none

/-- The aggregate row of one group. -/
def aggRowFor (rs : List Record) (s : String) : AggRow :=
  { scenario := s
    mean := listMean (valsFor rs s)
    svar := sampleVar (valsFor rs s)
    count := (valsFor rs s).length }

/-- `scenario_throughput` before the final sort: one row per present
scenario, in ascending key order. -/
def aggTable (rs : List Record) : List AggRow :=
  (sortKeys (discoveryKeys rs)).map (aggRowFor rs)

/-- Descending-by-mean comparator of `sort_values('mean', ascending=False)`. -/
def rowLe (a b : AggRow) : Prop := b.mean ≤ a.mean

instance : DecidableRel rowLe :=
  fun a b => inferInstanceAs (Decidable (b.mean ≤ a.mean))

/-- `scenario_throughput.sort_values('mean', ascending=False)`.  pandas
routes `ascending=False` through `nargsort` (reverse, argsort, reverse),
which preserves the incoming relative order of tied elements whenever the
argsort kernel is stable (numpy's introsort runs a stable insertion sort at
the sizes that arise here); modelled as a stable descending insertion sort. -/
def sortedAgg (rs : List Record) : List AggRow := List.insertionSort rowLe (aggTable rs)

/-! ### Renderer and reporter -/

/-- The bar-chart data of `ax.bar(scenario, mean, yerr=std)`: per bar its
label, height, and error-bar half-length (`none` = NaN std, for which
matplotlib draws no visible error bar). -/
def chartBars (t : List AggRow) : List (String × ℚ × Option ℚ) :=
  t.map fun r => (r.scenario, r.mean, r.svar)

/-- Python `{q:10,.1f}` (and `{q:7,.1f}`): one decimal, comma grouping,
right-justified to the field width. -/
def fmtFixed1 (w : ℕ) (q : ℚ) : String := padLeft w (fmtTenths (tenths q))

/-- The std field of the report line: a NaN std renders as `nan` (padded),
a real std as the rounded tenths of `√svar`. -/
def stdDisplay (w : ℕ) : Option ℚ → String
  | none => padLeft w "nan"
  | some v => padLeft w (fmtTenths (sqrtTenths v))

/-- `f"{row['scenario']:20s}: {row['mean']:10,.1f} ± {row['std']:7,.1f} QPS (n={int(row['count'])})"`. -/
def reportLine (r : AggRow) : String :=
  padRight r.scenario 20 ++ ": " ++ fmtFixed1 10 r.mean ++ " ± " ++ stdDisplay 7 r.svar ++
    " QPS (n=" ++ toString r.count ++ ")"

/-- `"=" * 60`. -/
def banner : String := String.mk (List.replicate 60 '=')

/-- The statistics block printed after the chart is saved: opening banner
(preceded by a blank line), title, banner, one line per aggregate row, and a
closing banner. -/
def reportLines (t : List AggRow) : List String :=
  ("\n" ++ banner) :: "Throughput Statistics by Scenario" :: banner ::
    (t.map reportLine ++ [banner])

/-! ### Top level -/

/-- `'.csv'`. -/
def csvToken : List Char := ['.', 'c', 's', 'v']

/-- `'_throughput.png'`. -/
def pngToken : List Char := "_throughput.png".data

/-- `csv_file.replace('.csv', '_throughput.png')`. -/
def outputPath (p : String) : String := String.mk (pyReplace csvToken pngToken p.data)

/-- `csv_file = 'results/results.csv'` unless `sys.argv[1]` is given;
`argv` models the arguments after the program name. -/
def resolvePath (argv : List String) : String := argv.headD "results/results.csv"

/-- Observable outcome of one run of the script. -/
structure ExecResult where
  exitCode : ℕ
  stdoutLines : List String
  stderrLines : List String
  imageWritten : Option String
deriving DecidableEq

/-- The whole script: `fsExists` models `os.path.exists`, and `records`
models the rows `pd.read_csv` returns for the resolved file.  On a missing
file the script prints (to standard output — `print` without `file=`) and
exits with code 1; otherwise it aggregates, saves the chart next to the
derived path, confirms the path, and prints the statistics block. -/
def run (fsExists : String → Bool) (argv : List String) (records : List Record) : ExecResult :=
  let p := resolvePath argv
  if fsExists p then
    let out := outputPath p
    { exitCode := 0
      stdoutLines := ("Chart saved to: " ++ out) :: reportLines (sortedAgg records)
      stderrLines := []
      imageWritten := some out }
  else
    { exitCode := 1
      stdoutLines := ["Error: CSV file not found: " ++ p]
      stderrLines := []
      imageWritten := none }

/-- The worked example of the specification:
rows `[("A", 100), ("A", 120), ("B", 50)]`. -/
def exampleRecords : List Record :=
  [⟨some "A", 100⟩, ⟨some "A", 120⟩, ⟨some "B", 50⟩]

/-! ### Order facts about the comparators -/

theorem lexLe_total : ∀ as bs : List Char, lexLe as bs = true ∨ lexLe bs as = true
  | [], _ => Or.inl rfl
  | _ :: _, [] => Or.inr rfl
  | a :: as, b :: bs => by
    by_cases hab : a < b
    · exact Or.inl (by simp [lexLe, hab])
    by_cases hba : b < a
    · exact Or.inr (by simp [lexLe, hba])
    rcases lexLe_total as bs with h | h
    · exact Or.inl (by simp [lexLe, hab, hba, h])
    · exact Or.inr (by simp [lexLe, hab, hba, h])

theorem lexLe_trans :
    ∀ as bs cs : List Char, lexLe as bs = true → lexLe bs cs = true → lexLe as cs = true
  | [], _, _, _, _ => rfl
  | _ :: _, [], _, h, _ => by simp [lexLe] at h
  | _ :: _, _ :: _, [], _, h => by simp [lexLe] at h
  | a :: as, b :: bs, c :: cs, h₁, h₂ => by
    simp only [lexLe] at h₁ h₂ ⊢
    by_cases hab : a < b
    · by_cases hbc : b < c
      · simp [lt_trans hab hbc]
      · by_cases hcb : c < b
        · simp [hbc, hcb] at h₂
        · have hbcEq : b = c := le_antisymm (not_lt.1 hcb) (not_lt.1 hbc)
          simp [hbcEq ▸ hab]
    · by_cases hba : b < a
      · simp [hab, hba] at h₁
      · have habEq : a = b := le_antisymm (not_lt.1 hba) (not_lt.1 hab)
        subst habEq
        by_cases hac : a < c
        · simp [hac]
        · by_cases hca : c < a
          · simp [hac, hca] at h₂
          · simp only [hab, if_neg hac, if_neg hca, if_neg hba] at h₁ h₂ ⊢
            exact lexLe_trans as bs cs h₁ h₂

instance : IsTotal String strLe := ⟨fun a b => lexLe_total a.data b.data⟩

instance : IsTrans String strLe := ⟨fun a b c => lexLe_trans a.data b.data c.data⟩

instance : IsTotal AggRow rowLe := ⟨fun a b => le_total b.mean a.mean⟩

instance : IsTrans AggRow rowLe := ⟨fun _ _ _ h₁ h₂ => le_trans h₂ h₁⟩

/-! ### Key discovery facts -/

theorem addKey_nodup (ks : List String) (r : Record) (h : ks.Nodup) : (addKey ks r).Nodup := by
  unfold addKey
  cases r.scenario with
  | none => exact h
  | some s =>
    by_cases hs : s ∈ ks
    · simpa [hs] using h
    · simp [hs, List.nodup_append, h]

theorem mem_addKey (ks : List String) (r : Record) (t : String) :
    t ∈ addKey ks r ↔ t ∈ ks ∨ r.scenario = some t := by
  unfold addKey
  cases hr : r.scenario with
  | none => simp
  | some s =>
    by_cases hs : s ∈ ks
    · simp only [if_pos hs]
      constructor
      · exact fun h => Or.inl h
      · rintro (h | h)
        · exact h
        · cases h; exact hs
    · simp only [if_neg hs, List.mem_append, List.mem_singleton, Option.some.injEq]
      constructor
      · rintro (h | h)
        · exact Or.inl h
        · exact Or.inr h.symm
      · rintro (h | h)
        · exact Or.inl h
        · exact Or.inr h.symm

theorem foldl_addKey_nodup :
    ∀ (rs : List Record) (ks : List String), ks.Nodup → (rs.foldl addKey ks).Nodup
  | [], _, h => h
  | r :: rs, ks, h => foldl_addKey_nodup rs (addKey ks r) (addKey_nodup ks r h)

theorem discoveryKeys_nodup (rs : List Record) : (discoveryKeys rs).Nodup :=
  foldl_addKey_nodup rs [] List.nodup_nil

theorem mem_foldl_addKey :
    ∀ (rs : List Record) (ks : List String) (t : String),
      t ∈ rs.foldl addKey ks ↔ t ∈ ks ∨ some t ∈ rs.map (·.scenario)
  | [], ks, t => by simp
  | r :: rs, ks, t => by
    rw [List.foldl_cons, mem_foldl_addKey rs (addKey ks r) t, mem_addKey]
    simp [or_assoc, eq_comm]

theorem mem_discoveryKeys (rs : List Record) (t : String) :
    t ∈ discoveryKeys rs ↔ some t ∈ rs.map (·.scenario) := by
  rw [discoveryKeys, mem_foldl_addKey]
  simp

/-! ### Sorting facts -/

theorem sortKeys_perm (ks : List String) : (sortKeys ks).Perm ks :=
  List.perm_insertionSort strLe ks

theorem sortKeys_sorted (ks : List String) : (sortKeys ks).Pairwise strLe :=
  List.sorted_insertionSort strLe ks

theorem sortKeys_nodup (ks : List String) (h : ks.Nodup) : (sortKeys ks).Nodup :=
  (sortKeys_perm ks).symm.nodup h

theorem aggTable_scenarios (rs : List Record) :
    (aggTable rs).map AggRow.scenario = sortKeys (discoveryKeys rs) := by
  rw [aggTable, List.map_map, show AggRow.scenario ∘ aggRowFor rs = id from rfl, List.map_id]

/-- A strictly-earlier group key: what the key sort guarantees between two
distinct rows of `scenario_throughput`. -/
def keyBefore (a b : AggRow) : Prop := strLe a.scenario b.scenario ∧ a.scenario ≠ b.scenario

/-- The order `sort_values('mean', ascending=False)` leaves rows in:
non-increasing means, and equal means still in ascending key order. -/
def rowOrdered (a b : AggRow) : Prop := rowLe a b ∧ (a.mean = b.mean → keyBefore a b)

theorem aggTable_pairwise_keyBefore (rs : List Record) : (aggTable rs).Pairwise keyBefore := by
  have hs : (sortKeys (discoveryKeys rs)).Pairwise strLe := sortKeys_sorted _
  have hn : (sortKeys (discoveryKeys rs)).Pairwise (· ≠ ·) :=
    sortKeys_nodup _ (discoveryKeys_nodup rs)
  have hall := hs.and hn
  rw [aggTable, List.pairwise_map]
  exact hall.imp fun h => ⟨h.1, h.2⟩

theorem sortedAgg_perm (rs : List Record) : (sortedAgg rs).Perm (aggTable rs) :=
  List.perm_insertionSort rowLe (aggTable rs)

theorem orderedInsert_rowOrdered (a : AggRow) :
    ∀ m : List AggRow, m.Pairwise rowOrdered → (∀ b ∈ m, keyBefore a b) →
      (List.orderedInsert rowLe a m).Pairwise rowOrdered
  | [], _, _ => List.pairwise_singleton _ _
  | b :: m, hp, hk => by
    obtain ⟨hb, hm⟩ := List.pairwise_cons.1 hp
    by_cases h : rowLe a b
    · rw [List.orderedInsert, if_pos h]
      refine List.pairwise_cons.2 ⟨?_, hp⟩
      intro x hx
      rcases List.mem_cons.1 hx with rfl | hx
      · exact ⟨h, fun _ => hk x (List.mem_cons_self _ _)⟩
      · have hbx := hb x hx
        exact ⟨le_trans hbx.1 h, fun _ => hk x (List.mem_cons_of_mem _ hx)⟩
    · rw [List.orderedInsert, if_neg h]
      have hlt : a.mean < b.mean := lt_of_not_ge h
      refine List.pairwise_cons.2 ⟨?_, ?_⟩
      · intro x hx
        rcases (List.mem_orderedInsert rowLe).1 hx with rfl | hx
        · exact ⟨le_of_lt hlt, fun he => absurd he.symm (ne_of_lt hlt)⟩
        · exact hb x hx
      · exact orderedInsert_rowOrdered a m hm fun c hc => hk c (List.mem_cons_of_mem _ hc)

theorem insertionSort_rowOrdered :
    ∀ l : List AggRow, l.Pairwise keyBefore →
      (List.insertionSort rowLe l).Pairwise rowOrdered
  | [], _ => List.Pairwise.nil
  | a :: l, hp => by
    obtain ⟨ha, hl⟩ := List.pairwise_cons.1 hp
    rw [List.insertionSort]
    refine orderedInsert_rowOrdered a _ (insertionSort_rowOrdered l hl) ?_
    intro b hb
    exact ha b ((List.perm_insertionSort rowLe l).mem_iff.1 hb)

theorem sortedAgg_rowOrdered (rs : List Record) : (sortedAgg rs).Pairwise rowOrdered :=
  insertionSort_rowOrdered _ (aggTable_pairwise_keyBefore rs)

/-! ### Counting: every present-keyed row lands in exactly one group -/

theorem length_filter_split (p : α → Bool) :
    ∀ l : List α, (l.filter p).length + (l.filter fun a => !(p a)).length = l.length
  | [] => rfl
  | a :: l => by
    cases h : p a <;>
      simp [List.filter_cons, h, ← length_filter_split p l] <;> omega

theorem sum_group_counts :
    ∀ (ks : List String) (rs : List Record), ks.Nodup →
      (∀ r ∈ rs, ∃ s, r.scenario = some s ∧ s ∈ ks) →
      (ks.map fun k => (rs.filter fun r => decide (r.scenario = some k)).length).sum = rs.length
  | [], rs, _, hcov => by
    have : rs = [] := by
      cases rs with
      | nil => rfl
      | cons r rs =>
        obtain ⟨s, _, hs⟩ := hcov r (List.mem_cons_self _ _)
        exact absurd hs (List.not_mem_nil s)
    simp [this]
  | k :: ks, rs, hnd, hcov => by
    obtain ⟨hk, hnd'⟩ := List.pairwise_cons.1 hnd
    set rs' := rs.filter fun r => !(decide (r.scenario = some k)) with hrs'
    have hcov' : ∀ r ∈ rs', ∃ s, r.scenario = some s ∧ s ∈ ks := by
      intro r hr
      have hmem : r ∈ rs := List.mem_of_mem_filter hr
      have hne : ¬ r.scenario = some k := by
        have := List.of_mem_filter hr
        simpa using this
      obtain ⟨s, hsome, hs⟩ := hcov r hmem
      refine ⟨s, hsome, ?_⟩
      rcases List.mem_cons.1 hs with rfl | hs
      · exact absurd hsome hne
      · exact hs
    have hsame : ∀ k' ∈ ks,
        (rs.filter fun r => decide (r.scenario = some k')) =
          (rs'.filter fun r => decide (r.scenario = some k')) := by
      intro k' hk'
      have hkk' : k ≠ k' := fun h => hk k' hk' h
      rw [hrs', List.filter_filter]
      refine (List.filter_congr ?_).symm
      intro r _
      cases hsc : r.scenario with
      | none => simp
      | some s =>
        by_cases hs : s = k'
        · subst hs
          have : ¬ s = k := fun h => hkk' (h ▸ rfl)
          simp [this]
        · simp [hs]
    have hmapeq :
        (ks.map fun k' => (rs.filter fun r => decide (r.scenario = some k')).length) =
          ks.map fun k' => (rs'.filter fun r => decide (r.scenario = some k')).length := by
      refine List.map_congr_left ?_
      intro k' hk'
      rw [hsame k' hk']
    rw [List.map_cons, List.sum_cons, hmapeq,
      sum_group_counts ks rs' hnd' hcov', hrs']
    exact length_filter_split _ rs

/-! ### `str.replace` facts -/

theorem isPrefixOf_append_self : ∀ p l : List Char, p.isPrefixOf (p ++ l) = true
  | [], l => by simp
  | a :: p, l => by simp [List.isPrefixOf, isPrefixOf_append_self p l]

theorem isPrefixOf_iff_take :
    ∀ p l : List Char, p.isPrefixOf l = true ↔ l.take p.length = p
  | [], l => by simp
  | a :: p, [] => by simp [List.isPrefixOf]
  | a :: p, b :: l => by
    simp only [List.isPrefixOf, Bool.and_eq_true, beq_iff_eq, List.length_cons,
      List.take_succ_cons, List.cons.injEq, isPrefixOf_iff_take p l]
    exact and_congr_left fun _ => eq_comm

theorem take_append_agree (pat : List Char) :
    ∀ (x rest : List Char), x ≠ [] →
      (x ++ pat ++ rest).take pat.length =
        (x ++ pat.take (pat.length - 1)).take pat.length := by
  intro x rest hx
  rw [List.append_assoc, List.take_append_eq_append_take, List.take_append_eq_append_take,
    List.take_append_eq_append_take, List.take_take]
  have hlen : 1 ≤ x.length := by
    cases x with
    | nil => exact absurd rfl hx
    | cons a x => simp
  have h1 : pat.length - x.length - pat.length = 0 := by omega
  have h2 : (pat.length - x.length) ⊓ (pat.length - 1) = pat.length - x.length :=
    inf_eq_left.2 (by omega)
  rw [h1, h2, List.take_zero, List.append_nil]

theorem replAux_skip (pat rep : List Char) :
    ∀ (x l : List Char), replAux pat rep (x ++ l) x.length = replAux pat rep l 0
  | [], _ => rfl
  | _ :: x, l => replAux_skip pat rep x l

theorem replAux_no_occurrence (pat rep : List Char) :
    ∀ l : List Char, containsSub pat l = false → replAux pat rep l 0 = l
  | [], _ => rfl
  | c :: cs, h => by
    rw [containsSub, Bool.or_eq_false_iff] at h
    rw [replAux, if_neg fun hcon => by rw [hcon.2] at h; exact absurd h.1 (by simp)]
    rw [replAux_no_occurrence pat rep cs h.2]

theorem replAux_append_occurrence (pat rep : List Char) (hpat : pat ≠ []) :
    ∀ (s rest : List Char),
      containsSub pat (s ++ pat.take (pat.length - 1)) = false →
      replAux pat rep (s ++ pat ++ rest) 0 = s ++ rep ++ replAux pat rep rest 0
  | [], rest, _ => by
    obtain ⟨p, pat', rfl⟩ : ∃ p pat', pat = p :: pat' := by
      cases pat with
      | nil => exact absurd rfl hpat
      | cons p pat' => exact ⟨p, pat', rfl⟩
    have hpre : (p :: pat').isPrefixOf ((p :: pat') ++ rest) = true :=
      isPrefixOf_append_self _ _
    simp only [List.nil_append]
    rw [List.cons_append, replAux,
      if_pos ⟨hpat, by rw [← List.cons_append]; exact hpre⟩]
    have hlen : (p :: pat').length - 1 = pat'.length := by simp
    rw [hlen, replAux_skip]
  | c :: s, rest, h => by
    rw [List.cons_append, containsSub, Bool.or_eq_false_iff] at h
    obtain ⟨h1, h2⟩ := h
    have hlhs : (c :: s) ++ pat ++ rest = c :: (s ++ pat ++ rest) := by simp
    have hnot : ¬ (pat ≠ [] ∧ pat.isPrefixOf (c :: (s ++ pat ++ rest)) = true) := by
      rintro ⟨-, hpre⟩
      rw [isPrefixOf_iff_take, ← hlhs,
        take_append_agree pat (c :: s) rest (by simp), ← isPrefixOf_iff_take,
        List.cons_append] at hpre
      rw [hpre] at h1
      exact Bool.noConfusion h1
    rw [hlhs, replAux, if_neg hnot,
      replAux_append_occurrence pat rep hpat s rest h2]
    simp

/-! ### Assorted pipeline helpers -/

theorem valsFor_length (rs : List Record) (s : String) :
    (valsFor rs s).length = (rs.filter fun r => decide (r.scenario = some s)).length := by
  simp [valsFor]

theorem aggRow_mem_sortedAgg (rs : List Record) (s : String)
    (h : some s ∈ rs.map (·.scenario)) : aggRowFor rs s ∈ sortedAgg rs := by
  have h1 : s ∈ discoveryKeys rs := (mem_discoveryKeys rs s).2 h
  have h2 : s ∈ sortKeys (discoveryKeys rs) := (sortKeys_perm _).mem_iff.2 h1
  have h3 : aggRowFor rs s ∈ aggTable rs := List.mem_map_of_mem _ h2
  exact (sortedAgg_perm rs).mem_iff.2 h3

theorem aggTable_example :
    aggTable exampleRecords = [⟨"A", 110, some 200, 2⟩, ⟨"B", 50, none, 1⟩] := by
  have h0 : sortKeys (discoveryKeys exampleRecords) = ["A", "B"] := by decide
  have hA : valsFor exampleRecords "A" = [100, 120] := by decide
  have hB : valsFor exampleRecords "B" = [50] := by decide
  rw [aggTable, h0]
  simp only [List.map_cons, List.map_nil, aggRowFor, hA, hB]
  norm_num [listMean, sampleVar]

theorem sortedAgg_example :
    sortedAgg exampleRecords = [⟨"A", 110, some 200, 2⟩, ⟨"B", 50, none, 1⟩] := by
  rw [sortedAgg, aggTable_example]
  decide

/-! ### Missing-key rows are invisible to the pipeline -/

theorem foldl_addKey_filter :
    ∀ (rs : List Record) (ks : List String),
      (rs.filter fun r => decide (r.scenario ≠ none)).foldl addKey ks = rs.foldl addKey ks
  | [], _ => rfl
  | r :: rs, ks => by
    cases hr : r.scenario with
    | none =>
      rw [List.filter_cons_of_neg (by simp [hr]), List.foldl_cons,
        show addKey ks r = ks from by rw [addKey, hr]]
      exact foldl_addKey_filter rs ks
    | some s =>
      rw [List.filter_cons_of_pos (by simp [hr]), List.foldl_cons, List.foldl_cons]
      exact foldl_addKey_filter rs (addKey ks r)

theorem valsFor_filter_none (rs : List Record) (s : String) :
    valsFor (rs.filter fun r => decide (r.scenario ≠ none)) s = valsFor rs s := by
  rw [valsFor, valsFor, List.filter_filter]
  refine congrArg _ (List.filter_congr ?_)
  intro r _
  cases hr : r.scenario <;> simp [hr]

theorem sortedAgg_filter_none (rs : List Record) :
    sortedAgg (rs.filter fun r => decide (r.scenario ≠ none)) = sortedAgg rs := by
  have hk : discoveryKeys (rs.filter fun r => decide (r.scenario ≠ none)) = discoveryKeys rs :=
    foldl_addKey_filter rs []
  have hrow : ∀ s, aggRowFor (rs.filter fun r => decide (r.scenario ≠ none)) s =
      aggRowFor rs s := by
    intro s
    rw [aggRowFor, aggRowFor, valsFor_filter_none]
  rw [sortedAgg, sortedAgg, aggTable, aggTable, hk]
  exact congrArg _ (List.map_congr_left fun s _ => hrow s)

/-! ### The claims -/

/-- C1: for every scenario value present in the input, the aggregate table
has a row whose mean is the arithmetic mean of the QPS values of the rows
with that scenario, whose sample variance (the square of the displayed std)
uses denominator `count - 1` and is NaN (`none`) when the count is 1, and
whose count is the number of such rows; on the worked example the aggregate
is exactly `A: mean 110, svar 200 (std = √200 = 14.142...), count 2` and
`B: mean 50, std NaN, count 1`. -/
theorem claim_C1 :
    (∀ (rs : List Record) (s : String), some s ∈ rs.map (·.scenario) →
      ∃ r ∈ sortedAgg rs, r.scenario = s ∧
        r.mean = (valsFor rs s).sum / ((valsFor rs s).length : ℚ) ∧
        (2 ≤ (valsFor rs s).length →
          r.svar = some (((valsFor rs s).map fun x =>
            (x - listMean (valsFor rs s)) ^ 2).sum / (((valsFor rs s).length : ℚ) - 1))) ∧
        ((valsFor rs s).length < 2 → r.svar = none) ∧
        r.count = (rs.filter fun x => decide (x.scenario = some s)).length) ∧
    sortedAgg exampleRecords = [⟨"A", 110, some 200, 2⟩, ⟨"B", 50, none, 1⟩] ∧
    ((14142 : ℚ) / 1000) ^ 2 < 200 ∧ (200 : ℚ) < ((14143 : ℚ) / 1000) ^ 2 := by
  refine ⟨?_, sortedAgg_example, by norm_num, by norm_num⟩
  intro rs s h
  refine ⟨aggRowFor rs s, aggRow_mem_sortedAgg rs s h, rfl, rfl, ?_, ?_, valsFor_length rs s⟩
  · intro hlen
    simp [aggRowFor, sampleVar, hlen]
  · intro hlen
    simp [aggRowFor, sampleVar]
    omega

/-- C1 witness: the general clause applied to the worked example at
scenario `A`. -/
theorem claim_C1_witness :
    ∃ r ∈ sortedAgg exampleRecords, r.scenario = "A" ∧
      r.mean = (valsFor exampleRecords "A").sum / ((valsFor exampleRecords "A").length : ℚ) ∧
      (2 ≤ (valsFor exampleRecords "A").length →
        r.svar = some (((valsFor exampleRecords "A").map fun x =>
          (x - listMean (valsFor exampleRecords "A")) ^ 2).sum /
            (((valsFor exampleRecords "A").length : ℚ) - 1))) ∧
      ((valsFor exampleRecords "A").length < 2 → r.svar = none) ∧
      r.count = (exampleRecords.filter fun x => decide (x.scenario = some "A")).length :=
  claim_C1.1 exampleRecords "A" (by decide)

/-- C2: the scenarios of the aggregate table are exactly the distinct
scenario values present in the input, without duplication, and every input
row is counted in exactly one aggregate row (each row's count is the number
of input rows with its scenario, and the counts sum to the input length). -/
theorem claim_C2 :
    ∀ rs : List Record, (∀ r ∈ rs, r.scenario ≠ none) →
      ((sortedAgg rs).map AggRow.scenario).Nodup ∧
      (∀ s : String, s ∈ (sortedAgg rs).map AggRow.scenario ↔ some s ∈ rs.map (·.scenario)) ∧
      (∀ r ∈ sortedAgg rs,
        r.count = (rs.filter fun x => decide (x.scenario = some r.scenario)).length) ∧
      ((sortedAgg rs).map AggRow.count).sum = rs.length := by
  intro rs hall
  have hmapPerm := (sortedAgg_perm rs).map AggRow.scenario
  refine ⟨?_, ?_, ?_, ?_⟩
  · refine hmapPerm.symm.nodup ?_
    rw [aggTable_scenarios]
    exact sortKeys_nodup _ (discoveryKeys_nodup rs)
  · intro s
    rw [hmapPerm.mem_iff, aggTable_scenarios, (sortKeys_perm _).mem_iff, mem_discoveryKeys]
  · intro r hr
    have hr' : r ∈ aggTable rs := (sortedAgg_perm rs).mem_iff.1 hr
    obtain ⟨k, _, rfl⟩ := List.mem_map.1 hr'
    rw [show (aggRowFor rs k).scenario = k from rfl,
      show (aggRowFor rs k).count = (valsFor rs k).length from rfl]
    exact valsFor_length rs k
  · have hcntPerm := ((sortedAgg_perm rs).map AggRow.count).sum_eq
    rw [hcntPerm, aggTable, List.map_map]
    have hfun : (AggRow.count ∘ aggRowFor rs) =
        fun k => (rs.filter fun r => decide (r.scenario = some k)).length := by
      funext k
      exact valsFor_length rs k
    rw [hfun]
    refine sum_group_counts _ rs (sortKeys_nodup _ (discoveryKeys_nodup rs)) ?_
    intro r hr
    cases hs : r.scenario with
    | none => exact absurd hs (hall r hr)
    | some s =>
      refine ⟨s, rfl, ?_⟩
      rw [(sortKeys_perm _).mem_iff, mem_discoveryKeys]
      exact List.mem_map.2 ⟨r, hr, hs⟩

/-- C2 witness: the exactness clauses evaluated on the worked example. -/
theorem claim_C2_witness :
    ((sortedAgg exampleRecords).map AggRow.scenario).Nodup ∧
    (∀ s : String, s ∈ (sortedAgg exampleRecords).map AggRow.scenario ↔
      some s ∈ exampleRecords.map (·.scenario)) ∧
    (∀ r ∈ sortedAgg exampleRecords,
      r.count =
        (exampleRecords.filter fun x => decide (x.scenario = some r.scenario)).length) ∧
    ((sortedAgg exampleRecords).map AggRow.count).sum = exampleRecords.length :=
  claim_C2 exampleRecords (by decide)

/-- Two groups with equal means, discovered in the order B then A. -/
def tieRecords : List Record := [⟨some "B", 10⟩, ⟨some "A", 10⟩]

/-- C3 counterexample: on input `[("B",10),("A",10)]` the two groups tie on
mean 10 and were discovered in the order B, A, yet the consumed sequence is
A, B — `groupby(sort=True)` reorders the groups by key before the
mean-descending sort, so ties do not keep group-discovery order. -/
theorem claim_C3_counterexample :
    (sortedAgg tieRecords).map AggRow.mean = [10, 10] ∧
    (sortedAgg tieRecords).map AggRow.scenario = ["A", "B"] ∧
    discoveryKeys tieRecords = ["B", "A"] ∧
    (sortedAgg tieRecords).map AggRow.scenario ≠ discoveryKeys tieRecords := by
  have ht : aggTable tieRecords = [⟨"A", 10, none, 1⟩, ⟨"B", 10, none, 1⟩] := by
    have h0 : sortKeys (discoveryKeys tieRecords) = ["A", "B"] := by decide
    have hA : valsFor tieRecords "A" = [10] := by decide
    have hB : valsFor tieRecords "B" = [10] := by decide
    rw [aggTable, h0]
    simp only [List.map_cons, List.map_nil, aggRowFor, hA, hB]
    norm_num [listMean, sampleVar]
  have hs : sortedAgg tieRecords = [⟨"A", 10, none, 1⟩, ⟨"B", 10, none, 1⟩] := by
    rw [sortedAgg, ht]
    decide
  refine ⟨?_, ?_, by decide, ?_⟩
  · rw [hs]; decide
  · rw [hs]; decide
  · rw [hs]; decide

/-- C3 amended: the consumed aggregate sequence is sorted by non-increasing
mean, and groups with equal means appear in ascending scenario order (the
key order `groupby(sort=True)` produced, which the stable descending sort
preserves) — not in group-discovery order. -/
theorem claim_C3_amended :
    ∀ rs : List Record,
      (sortedAgg rs).Pairwise fun a b =>
        b.mean ≤ a.mean ∧
          (a.mean = b.mean → strLe a.scenario b.scenario ∧ a.scenario ≠ b.scenario) :=
  fun rs => sortedAgg_rowOrdered rs

/-- C4 counterexample: with a nonexistent path `missing.csv` the script
exits with code 1 and writes no image, but the diagnostic goes to standard
output — standard error stays empty, contradicting the claimed
standard-error report. -/
theorem claim_C4_counterexample :
    (run (fun _ => false) ["missing.csv"] []).exitCode = 1 ∧
    (run (fun _ => false) ["missing.csv"] []).imageWritten = none ∧
    (run (fun _ => false) ["missing.csv"] []).stderrLines = [] ∧
    "Error: CSV file not found: missing.csv" ∉
      (run (fun _ => false) ["missing.csv"] []).stderrLines ∧
    (run (fun _ => false) ["missing.csv"] []).stdoutLines =
      ["Error: CSV file not found: missing.csv"] := by
  refine ⟨rfl, rfl, rfl, ?_, rfl⟩
  decide

/-- C4 amended: for every resolved CSV path that does not exist, the script
reports the missing path on standard output (not standard error), exits
with code 1, and writes no image. -/
theorem claim_C4_amended :
    ∀ (fs : String → Bool) (argv : List String) (recs : List Record),
      fs (resolvePath argv) = false →
      (run fs argv recs).exitCode = 1 ∧
      (run fs argv recs).stdoutLines = ["Error: CSV file not found: " ++ resolvePath argv] ∧
      (run fs argv recs).imageWritten = none ∧
      (run fs argv recs).stderrLines = [] := by
  intro fs argv recs h
  rw [run]
  simp only [h]
  exact ⟨rfl, rfl, rfl, rfl⟩

/-- C4 witness: the amended behaviour at the default path with an empty
file system. -/
theorem claim_C4_witness :
    (run (fun _ => false) [] []).exitCode = 1 ∧
    (run (fun _ => false) [] []).stdoutLines =
      ["Error: CSV file not found: " ++ resolvePath []] ∧
    (run (fun _ => false) [] []).imageWritten = none ∧
    (run (fun _ => false) [] []).stderrLines = [] :=
  claim_C4_amended (fun _ => false) [] [] rfl

/-- C5 counterexample: Python's `replace` substitutes every occurrence of
`.csv`, not only a suffix: for input path `a.csv.csv` the image is written
to `a_throughput.png_throughput.png`, not to the suffix-swapped
`a.csv_throughput.png` the claim promises. -/
theorem claim_C5_counterexample :
    (run (fun _ => true) ["a.csv.csv"] []).imageWritten =
      some "a_throughput.png_throughput.png" ∧
    (run (fun _ => true) ["a.csv.csv"] []).imageWritten ≠ some "a.csv_throughput.png" := by
  constructor
  · decide
  · decide

/-- C5 amended: when `.csv` occurs in the input path exactly once, namely
as its suffix (no occurrence starts within the stem), the chart image is
written to the sibling path with that suffix replaced by
`_throughput.png`. -/
theorem claim_C5_amended :
    ∀ (fs : String → Bool) (recs : List Record) (stem : List Char),
      containsSub csvToken (stem ++ ['.', 'c', 's']) = false →
      fs (String.mk (stem ++ csvToken)) = true →
      (run fs [String.mk (stem ++ csvToken)] recs).imageWritten =
        some (String.mk (stem ++ pngToken)) := by
  intro fs recs stem hocc hfs
  have hrepl : pyReplace csvToken pngToken (stem ++ csvToken) = stem ++ pngToken := by
    have h := replAux_append_occurrence csvToken pngToken (by decide) stem [] hocc
    simpa [pyReplace] using h
  have hout : outputPath (String.mk (stem ++ csvToken)) = String.mk (stem ++ pngToken) := by
    rw [outputPath]
    exact congrArg String.mk hrepl
  rw [run]
  simp only [show resolvePath [String.mk (stem ++ csvToken)] = String.mk (stem ++ csvToken)
    from rfl, hfs, hout]
  rfl

/-- C5 witness: the amended suffix swap on the default-style path
`results/results.csv`. -/
theorem claim_C5_witness :
    (run (fun _ => true) [String.mk ("results/results".data ++ csvToken)] []).imageWritten =
      some (String.mk ("results/results".data ++ pngToken)) :=
  claim_C5_amended (fun _ => true) [] "results/results".data (by decide) rfl

theorem spaces_length (n : ℕ) : (spaces n).length = n := by
  simp [spaces, String.length]

theorem padLeft_length (w : ℕ) (s : String) : w ≤ (padLeft w s).length := by
  rw [padLeft, String.length_append, spaces_length]
  omega

theorem padRight_length (s : String) (w : ℕ) : w ≤ (padRight s w).length := by
  rw [padRight, String.length_append, spaces_length]
  omega

/-- C6: each aggregate row is reported as the scenario padded to 20
characters, a colon, the mean 10 wide with one decimal and comma grouping,
` ± `, the std 7 wide likewise, and ` QPS (n=<count>)`; the worked example's
scenario A, which the pipeline aggregates to mean 110, std √200, count 2,
yields exactly the claimed line. -/
theorem claim_C6 :
    (∀ r : AggRow,
      reportLine r =
        padRight r.scenario 20 ++ ": " ++ fmtFixed1 10 r.mean ++ " ± " ++
          stdDisplay 7 r.svar ++ " QPS (n=" ++ toString r.count ++ ")" ∧
      20 ≤ (padRight r.scenario 20).length ∧
      10 ≤ (fmtFixed1 10 r.mean).length ∧
      7 ≤ (stdDisplay 7 r.svar).length) ∧
    reportLine ⟨"A", 110, some 200, 2⟩ =
      "A                   :      110.0 ±    14.1 QPS (n=2)" ∧
    ⟨"A", 110, some 200, 2⟩ ∈ sortedAgg exampleRecords ∧
    reportLine ⟨"A", 110, some 200, 2⟩ ∈ reportLines (sortedAgg exampleRecords) := by
  refine ⟨?_, by decide, ?_, ?_⟩
  · intro r
    refine ⟨rfl, padRight_length _ _, padLeft_length _ _, ?_⟩
    cases r.svar with
    | none => exact padLeft_length _ _
    | some v => exact padLeft_length _ _
  · rw [sortedAgg_example]
    exact List.mem_cons_self _ _
  · rw [sortedAgg_example, reportLines]
    simp

/-- C7: a group with exactly one record breaks nothing — its aggregate row
exists with std NaN (`svar = none`) and count 1, the chart row carries no
error-bar value, and the reporter still renders the line, displaying the
std as (padded) `nan`. -/
theorem claim_C7 :
    ∀ (rs : List Record) (s : String),
      (rs.filter fun x => decide (x.scenario = some s)).length = 1 →
      ∃ r ∈ sortedAgg rs, r.scenario = s ∧ r.svar = none ∧ r.count = 1 ∧
        (r.scenario, r.mean, (none : Option ℚ)) ∈ chartBars (sortedAgg rs) ∧
        reportLine r =
          padRight r.scenario 20 ++ ": " ++ fmtFixed1 10 r.mean ++ " ± " ++
            stdDisplay 7 r.svar ++ " QPS (n=" ++ toString r.count ++ ")" ∧
        stdDisplay 7 r.svar = "    nan" := by
  intro rs s hlen
  have hne : (rs.filter fun x => decide (x.scenario = some s)) ≠ [] := by
    intro hnil
    rw [hnil] at hlen
    simp at hlen
  obtain ⟨r0, hr0⟩ := List.exists_mem_of_ne_nil _ hne
  have hpres : some s ∈ rs.map (·.scenario) := by
    refine List.mem_map.2 ⟨r0, List.mem_of_mem_filter hr0, ?_⟩
    have := List.of_mem_filter hr0
    simpa using this
  have hv1 : (valsFor rs s).length = 1 := by rw [valsFor_length]; exact hlen
  have hsv : (aggRowFor rs s).svar = none := by
    rw [show (aggRowFor rs s).svar = sampleVar (valsFor rs s) from rfl, sampleVar,
      if_neg (by omega)]
  have hmem := aggRow_mem_sortedAgg rs s hpres
  refine ⟨aggRowFor rs s, hmem, rfl, hsv, hv1, ?_, rfl, ?_⟩
  · rw [← hsv]
    exact List.mem_map_of_mem _ hmem
  · rw [hsv]
    decide

/-- C7 witness: the single-record group B of the worked example. -/
theorem claim_C7_witness :
    ∃ r ∈ sortedAgg exampleRecords, r.scenario = "B" ∧ r.svar = none ∧ r.count = 1 ∧
      (r.scenario, r.mean, (none : Option ℚ)) ∈ chartBars (sortedAgg exampleRecords) ∧
      reportLine r =
        padRight r.scenario 20 ++ ": " ++ fmtFixed1 10 r.mean ++ " ± " ++
          stdDisplay 7 r.svar ++ " QPS (n=" ++ toString r.count ++ ")" ∧
      stdDisplay 7 r.svar = "    nan" :=
  claim_C7 exampleRecords "B" (by decide)

/-- C8: with zero data rows nothing fails — the aggregate table is empty,
the chart has no bars, and the report is just the banner block with no
per-scenario line; the run still saves the (empty) chart and exits 0. -/
theorem claim_C8 :
    ∀ (fs : String → Bool) (argv : List String),
      fs (resolvePath argv) = true →
      sortedAgg ([] : List Record) = [] ∧
      chartBars (sortedAgg ([] : List Record)) = [] ∧
      reportLines (sortedAgg ([] : List Record)) =
        ["\n" ++ banner, "Throughput Statistics by Scenario", banner, banner] ∧
      (run fs argv []).exitCode = 0 ∧
      (run fs argv []).imageWritten = some (outputPath (resolvePath argv)) ∧
      (run fs argv []).stdoutLines =
        ("Chart saved to: " ++ outputPath (resolvePath argv)) ::
          ["\n" ++ banner, "Throughput Statistics by Scenario", banner, banner] := by
  intro fs argv h
  rw [run]
  simp only [h]
  exact ⟨rfl, rfl, rfl, rfl, rfl, rfl⟩

/-- C8 witness: the empty dataset at the default path. -/
theorem claim_C8_witness :
    sortedAgg ([] : List Record) = [] ∧
    chartBars (sortedAgg ([] : List Record)) = [] ∧
    reportLines (sortedAgg ([] : List Record)) =
      ["\n" ++ banner, "Throughput Statistics by Scenario", banner, banner] ∧
    (run (fun _ => true) [] []).exitCode = 0 ∧
    (run (fun _ => true) [] []).imageWritten = some (outputPath (resolvePath [])) ∧
    (run (fun _ => true) [] []).stdoutLines =
      ("Chart saved to: " ++ outputPath (resolvePath [])) ::
        ["\n" ++ banner, "Throughput Statistics by Scenario", banner, banner] :=
  claim_C8 (fun _ => true) [] rfl

theorem sum_counts_of_present (rs : List Record) (hall : ∀ r ∈ rs, r.scenario ≠ none) :
    ((sortedAgg rs).map AggRow.count).sum = rs.length := by
  have hcntPerm := ((sortedAgg_perm rs).map AggRow.count).sum_eq
  rw [hcntPerm, aggTable, List.map_map]
  have hfun : (AggRow.count ∘ aggRowFor rs) =
      fun k => (rs.filter fun r => decide (r.scenario = some k)).length := by
    funext k
    exact valsFor_length rs k
  rw [hfun]
  refine sum_group_counts _ rs (sortKeys_nodup _ (discoveryKeys_nodup rs)) ?_
  intro r hr
  cases hs : r.scenario with
  | none => exact absurd hs (hall r hr)
  | some s =>
    refine ⟨s, rfl, ?_⟩
    rw [(sortKeys_perm _).mem_iff, mem_discoveryKeys]
    exact List.mem_map.2 ⟨r, hr, hs⟩

/-- C9: rows with a missing scenario are silently dropped by the grouping
step — removing them changes no pipeline output (aggregate table, chart, or
report), and the group counts account for exactly the rows whose scenario
is present. -/
theorem claim_C9 :
    ∀ rs : List Record,
      sortedAgg (rs.filter fun r => decide (r.scenario ≠ none)) = sortedAgg rs ∧
      reportLines (sortedAgg (rs.filter fun r => decide (r.scenario ≠ none))) =
        reportLines (sortedAgg rs) ∧
      chartBars (sortedAgg (rs.filter fun r => decide (r.scenario ≠ none))) =
        chartBars (sortedAgg rs) ∧
      ((sortedAgg rs).map AggRow.count).sum =
        (rs.filter fun r => decide (r.scenario ≠ none)).length := by
  intro rs
  have h := sortedAgg_filter_none rs
  refine ⟨h, by rw [h], by rw [h], ?_⟩
  rw [← h]
  refine sum_counts_of_present _ ?_
  intro r hr
  have := List.of_mem_filter hr
  simpa using this

/-- C10: a path with no occurrence of `.csv` is returned unchanged by the
name derivation, so the chart is saved over the input file itself; and in a
path with several occurrences every one of them (not only the suffix) is
replaced by `_throughput.png`. -/
theorem claim_C10 :
    (∀ p : String, containsSub csvToken p.data = false → outputPath p = p) ∧
    (∀ (fs : String → Bool) (recs : List Record) (p : String),
      containsSub csvToken p.data = false → fs p = true →
      (run fs [p] recs).imageWritten = some p) ∧
    (∀ a b : List Char,
      containsSub csvToken (a ++ ['.', 'c', 's']) = false →
      containsSub csvToken (b ++ ['.', 'c', 's']) = false →
      outputPath (String.mk (a ++ csvToken ++ b ++ csvToken)) =
        String.mk (a ++ pngToken ++ b ++ pngToken)) := by
  have hid : ∀ p : String, containsSub csvToken p.data = false → outputPath p = p := by
    intro p hp
    rw [outputPath, pyReplace, replAux_no_occurrence _ _ _ hp]
  refine ⟨hid, ?_, ?_⟩
  · intro fs recs p hp hfs
    rw [run]
    simp only [show resolvePath [p] = p from rfl, hfs, hid p hp]
    rfl
  · intro a b ha hb
    rw [outputPath]
    refine congrArg String.mk ?_
    have hb' : replAux csvToken pngToken (b ++ csvToken) 0 = b ++ pngToken := by
      have h := replAux_append_occurrence csvToken pngToken (by decide) b [] hb
      simpa using h
    show replAux csvToken pngToken (a ++ csvToken ++ b ++ csvToken) 0 = _
    rw [List.append_assoc (a ++ csvToken) b csvToken,
      replAux_append_occurrence csvToken pngToken (by decide) a (b ++ csvToken) ha, hb']
    simp

/-- C10 witness: an extensionless path is left unchanged (and the chart is
saved over that very path), and a doubled `.csv` is replaced at both
occurrences. -/
theorem claim_C10_witness :
    outputPath "noext" = "noext" ∧
    (run (fun _ => true) ["report.txt"] []).imageWritten = some "report.txt" ∧
    outputPath (String.mk ("a".data ++ csvToken ++ "b".data ++ csvToken)) =
      String.mk ("a".data ++ pngToken ++ "b".data ++ pngToken) :=
  ⟨claim_C10.1 "noext" (by decide),
   claim_C10.2.1 (fun _ => true) [] "report.txt" (by decide) rfl,
   claim_C10.2.2 "a".data "b".data (by decide) (by decide)⟩
